import Mathlib

/-
Verification of the DebugSharp debugger-integration core against its
natural-language specification.  Strings are modelled as `List Char`
(UTF-16 code units of the TypeScript strings; all constants involved are
ASCII).  JavaScript regular-expression operations used by the source are
translated to explicit recursive functions, with the exact
leftmost-match / global-replace semantics spelled out at each definition.
-/

namespace DebugSharp

/-! ### Character and string utilities -/

/-- The character `{` (written via its code point to keep string scanning simple). -/
def lbrace : Char := Char.ofNat 123

/-- The character `}`. -/
def rbrace : Char := Char.ofNat 125

/-- The backtick character. -/
def backtick : Char := Char.ofNat 96

/-- The single-quote character. -/
def squote : Char := Char.ofNat 39

/-- JavaScript whitespace as used by `String.prototype.trim` and the regex
class `\s` (ASCII fragment plus NBSP and BOM; the source strings involved
are ASCII). -/
def isJsWs (c : Char) : Bool :=
  c = ' ' || c = '\t' || c = '\n' || c = '\r' ||
  c = Char.ofNat 11 || c = Char.ofNat 12 || c = Char.ofNat 160 || c = Char.ofNat 65279

/-- Drop leading JS whitespace. -/
def jsTrimStart (s : List Char) : List Char := s.dropWhile isJsWs

/-- Drop trailing JS whitespace (JS `trimEnd`). -/
def jsTrimEnd (s : List Char) : List Char := (s.reverse.dropWhile isJsWs).reverse

/-- JS `trim`. -/
def jsTrim (s : List Char) : List Char := jsTrimEnd (jsTrimStart s)

/-- `needle` is a prefix of `hay`. -/
def isPre : List Char → List Char → Bool
  | [], _ => true
  | _ :: _, [] => false
  | a :: as, b :: bs => a = b && isPre as bs

/-- `s` starts with character `c`. -/
def startsWithChar (c : Char) : List Char → Bool
  | [] => false
  | b :: _ => b = c

/-- `needle` occurs as a contiguous substring of `hay`. -/
def containsSeq (needle : List Char) : List Char → Bool
  | [] => needle.isEmpty
  | c :: cs => isPre needle (c :: cs) || containsSeq needle cs

/-- Index of the first occurrence of `needle` in `hay`
(JS `String.prototype.indexOf`, with `none` for `-1`). -/
def firstOccur? (needle : List Char) : List Char → Option Nat
  | [] => if needle.isEmpty then some 0 else none
  | c :: cs =>
    if isPre needle (c :: cs) then some 0
    else (firstOccur? needle cs).map (· + 1)

/-- Index of the last occurrence of `needle` in `hay`
(JS `String.prototype.lastIndexOf`). -/
def lastOccur? (needle : List Char) : List Char → Option Nat
  | [] => if needle.isEmpty then some 0 else none
  | c :: cs =>
    match lastOccur? needle cs with
    | some i => some (i + 1)
    | none => if isPre needle (c :: cs) then some 0 else none

/-- JS `hay.indexOf(String(c), start)`: first occurrence of the one-character
needle `c` at an index `≥ start`. -/
def idxOfCharFrom (c : Char) (start : Nat) (hay : List Char) : Option Nat :=
  (firstOccur? [c] (hay.drop start)).map (· + start)

/-- JS `String.prototype.substring` (clamps to the string length and swaps
reversed arguments). -/
def jsSubstring (hay : List Char) (a b : Nat) : List Char :=
  let a' := min a hay.length
  let b' := min b hay.length
  if a' ≤ b' then (hay.take b').drop a' else (hay.take a').drop b'

/-- Join with newline separators (JS `Array.prototype.join`). -/
def joinNL : List (List Char) → List Char
  | [] => []
  | [x] => x
  | x :: y :: xs => x ++ '\n' :: joinNL (y :: xs)

/-- First-occurrence deduplication, as done by `[...new Set(xs)]`:
keep an element iff it did not already occur earlier. -/
def dedupFirstAux (seen : List (List Char)) : List (List Char) → List (List Char)
  | [] => []
  | x :: xs =>
    if seen.contains x then dedupFirstAux seen xs
    else x :: dedupFirstAux (x :: seen) xs

/-- First-occurrence deduplication, as done by `[...new Set(xs)]`. -/
def dedupFirst (xs : List (List Char)) : List (List Char) := dedupFirstAux [] xs

/-- JS default string comparison (`<` on code-unit sequences). -/
def ltString : List Char → List Char → Bool
  | [], [] => false
  | [], _ :: _ => true
  | _ :: _, [] => false
  | a :: as, b :: bs =>
    if a.val < b.val then true
    else if b.val < a.val then false
    else ltString as bs

/-- Insert into a sorted list (ascending by `ltString`). -/
def insertSorted (x : List Char) : List (List Char) → List (List Char)
  | [] => [x]
  | y :: ys => if ltString x y then x :: y :: ys else y :: insertSorted x ys

/-- Sort ascending by the JS default string comparison.  After
`dedupFirst` the elements are pairwise distinct and `ltString` is a strict
total order on them, so this agrees with `Array.prototype.sort()`. -/
def sortStrings : List (List Char) → List (List Char)
  | [] => []
  | x :: xs => insertSorted x (sortStrings xs)

/-! ### Scaffold generator (`src/debug/scaffoldGenerator.ts`) -/

/-- Marker delimiting the start of the user expression area. -/
def EXPR_START : List Char := "// --- expression start ---".toList

/-- Marker delimiting the end of the user expression area. -/
def EXPR_END : List Char := "// --- expression end ---".toList

/-- Header comment identifying scaffold files. -/
def SCAFFOLD_HEADER : List Char := "// DebugSharp: auto-generated evaluation context".toList

/-- A named binding with a sanitized static type (`interface ScopeVariable`). -/
structure ScopeVariable where
  name : List Char
  type : List Char
deriving DecidableEq, Repr

/-- Removal of the first inline debug value, the JS replace of regex
`\x7b[^\x7d]*\x7d` (non-global) by the empty string: the leftmost match
starts at the first `\x7b` that is followed by some `\x7d`, and extends to
the first such `\x7d`; if the first `\x7b` has no `\x7d` after it then no
later `\x7b` has one either, so the string is unchanged. -/
def removeFirstBracePair : List Char → List Char
  | [] => []
  | c :: cs =>
    if c = lbrace then
      match dropThroughRbrace cs with
      | some rest => rest
      | none => c :: cs
    else c :: removeFirstBracePair cs
where
  /-- Drop characters up to and including the first `\x7d`; `none` if absent. -/
  dropThroughRbrace : List Char → Option (List Char)
    | [] => none
    | c :: cs => if c = rbrace then some cs else dropThroughRbrace cs

/-- Scanner state machine equivalent to the global JS replace of
regex  backtick-digits  (a backtick followed by a maximal nonempty digit
run) by the empty string: `inRun` records that a digit run opened by a
backtick is being consumed. -/
def sbaGo : Bool → List Char → List Char
  | _, [] => []
  | inRun, c :: cs =>
    if inRun && c.isDigit then sbaGo true cs
    else if c = backtick && (match cs with | d :: _ => d.isDigit | [] => false) then
      sbaGo true cs
    else c :: sbaGo false cs

/-- Remove backtick generic-arity notation (e.g. the arity suffix of a CLR
generic type name). -/
def stripBacktickArity (s : List Char) : List Char := sbaGo false s

/-- Characters rejected by the final validation regex of `sanitizeType`. -/
def isDenylistChar (c : Char) : Bool :=
  c = '#' || c = '$' || c = '@' || c = '!' || c = '%' || c = '^' ||
  c = '&' || c = '=' || c = '|' || c = '\\' || c = ';'

/-- The fallback type. -/
def dynType : List Char := "dynamic".toList

/-- The final validation of `sanitizeType`: reject strings with invalid
characters, and the trailing fallback for an emptied string
(the source's last two lines). -/
def finalTypeCheck (u : List Char) : List Char :=
  if u.any isDenylistChar then dynType
  else if u = [] then dynType else u

/-- The straight-line tail of `sanitizeType` after the preview strip and
trim (factored out so that its properties can be stated on the
intermediate string): anonymous-type check, assembly-qualifier cut,
backtick-arity strip, final character validation. -/
def sanitizeTypeCore (t : List Char) : List Char :=
  if t = [] then dynType
  else if containsSeq "<>".toList t || startsWithChar '<' t then dynType
  else
    let t := if t.contains ',' && !t.contains '<'
             then jsTrim (t.takeWhile (fun c => !(c = ','))) else t
    finalTypeCheck (stripBacktickArity t)

/-- `sanitizeType` from the scaffold generator.  The argument is
`string | undefined` (`none` models `undefined`, which is falsy). -/
def sanitizeType (type? : Option (List Char)) : List Char :=
  match type? with
  | none => dynType
  | some ty =>
    if ty = [] || ty = "<error>".toList || ty = "void".toList then dynType
    else sanitizeTypeCore (jsTrim (removeFirstBracePair ty))

/-- Regex `\w`: `[A-Za-z0-9_]`. -/
def isWordChar (c : Char) : Bool := c.isAlpha || c.isDigit || c = '_'

/-- `isValidCSharpIdentifier`: test of regex `^[a-zA-Z_@]\w*$`. -/
def isValidCSharpIdentifier (name : List Char) : Bool :=
  match name with
  | [] => false
  | c :: cs => (c.isAlpha || c = '_' || c = '@') && cs.all isWordChar

/-- `rawName.split(...)[0]` for the split regex class of whitespace,
`\x7b` and `[`: the prefix before the first such character. -/
def splitNameToken (s : List Char) : List Char :=
  s.takeWhile (fun c => !(isJsWs c || c = lbrace || c = '['))

/-- The generated scaffold text before the final newline-and-indent that
precedes the expression-start marker: header, pragma lines, using block,
class/method opener, variable declarations. -/
def scaffoldPrefixBody (vars : List ScopeVariable) (usings : List (List Char)) :
    List Char :=
  let usingBlock := joinNL (sortStrings (dedupFirst usings))
  let varDeclarations :=
    joinNL (vars.map (fun v => "    ".toList ++ v.type ++ ' ' :: v.name ++ " = default!;".toList))
  let varSection := if varDeclarations = [] then [] else '\n' :: varDeclarations
  let usingSection := if usingBlock = [] then ['\n'] else '\n' :: usingBlock ++ ['\n']
  SCAFFOLD_HEADER ++ "\n#pragma warning disable\n#nullable disable".toList ++
    usingSection ++ "class _ \x7b void _() \x7b".toList ++ varSection

/-- The generated scaffold text before the expression-start marker
(`generateScaffold` emits this prefix, then `EXPR_START`, then the
expression region). -/
def scaffoldPrefix (vars : List ScopeVariable) (usings : List (List Char)) :
    List Char :=
  scaffoldPrefixBody vars usings ++ "\n    ".toList

/-- `generateScaffold(variables, usings, userExpression)`. -/
def generateScaffold (vars : List ScopeVariable) (usings : List (List Char))
    (userExpression : List Char) : List Char :=
  let exprContent := if userExpression = [] then "\n    ".toList else '\n' :: userExpression
  scaffoldPrefix vars usings ++ EXPR_START ++ exprContent ++
    "\n    ".toList ++ EXPR_END ++ "\n\x7d\x7d\n".toList

/-- `extractUserExpression(content)`. -/
def extractUserExpression (content : List Char) : List Char :=
  match firstOccur? EXPR_START content, lastOccur? EXPR_END content with
  | some startIdx, some endIdx =>
    if endIdx ≤ startIdx then jsTrim content
    else
      match idxOfCharFrom '\n' startIdx content with
      | none => []
      | some afterStart =>
        if endIdx ≤ afterStart then []
        else jsTrimEnd (jsSubstring content (afterStart + 1) endIdx)
  | _, _ => jsTrim content

/-- `isScaffoldFile(content)`. -/
def isScaffoldFile (content : List Char) : Bool := isPre SCAFFOLD_HEADER content

/-! ### Protocol data (Debug Adapter Protocol responses, as stubbed collaborators)

The protocol client is asynchronous and fallible; a stub maps each request
to `none` (the request threw, timed out, or the response lacked the
expected field — observationally identical at every use site below) or to
the structured response. -/

/-- A raw DAP variable as delivered by a `variables` response. -/
structure RawVariable where
  name : List Char
  value : List Char := []
  type? : Option (List Char) := none
  variablesReference : Int := 0
deriving DecidableEq, Repr

/-- A DAP scope (only its variables-container handle is consumed). -/
structure DapScope where
  variablesReference : Int
deriving DecidableEq, Repr

/-- A DAP stack frame (id plus the optional on-disk source path). -/
structure StackFrame where
  id : Int
  sourcePath? : Option (List Char) := none
deriving DecidableEq, Repr

/-- Stubbed protocol client plus the file-existence oracle used when
picking the first user-code frame. -/
structure ProtocolStub where
  stackTrace : Int → Option (List StackFrame)
  scopes : Int → Option (List DapScope)
  variablesFor : Int → Option (List RawVariable)
  fileExists : List Char → Bool

/-! ### Scope-variable collection (`getScopeVariables`, `getFrameAndVariables`) -/

/-- Accumulator of `getScopeVariables`: the ordered collected list plus the
`seenNames` set (membership only, modelled as a list). -/
structure VarAcc where
  vars : List ScopeVariable
  seen : List (List Char)

/-- The inner `addVariable` helper of `getScopeVariables`. -/
def addVariable (acc : VarAcc) (rawName : List Char) (type? : Option (List Char)) : VarAcc :=
  let name := jsTrim (splitNameToken rawName)
  if name = [] || startsWithChar '$' name || acc.seen.contains name then acc
  else if !isValidCSharpIdentifier name then acc
  else { vars := acc.vars ++ [⟨name, sanitizeType type?⟩], seen := name :: acc.seen }

/-- `expandThisMembers`: add the members of `this` as top-level bindings;
a failed `variables` request is swallowed (`Fail silently`). -/
def expandThisMembers (stub : ProtocolStub) (ref : Int) (acc : VarAcc) : VarAcc :=
  match stub.variablesFor ref with
  | none => acc
  | some members =>
    members.foldl (fun acc m =>
      let name := jsTrim (splitNameToken m.name)
      if name = [] || acc.seen.contains name then acc
      else if name = "Raw View".toList || name = "Static members".toList then acc
      else if !isValidCSharpIdentifier name then acc
      else { vars := acc.vars ++ [⟨name, sanitizeType m.type?⟩], seen := name :: acc.seen }) acc

/-- Loop body over one scope's variables. -/
def processScopeVars (stub : ProtocolStub) (vs : List RawVariable) (acc : VarAcc) : VarAcc :=
  vs.foldl (fun acc v =>
    if v.name = "this".toList && v.variablesReference > 0 then
      expandThisMembers stub v.variablesReference acc
    else addVariable acc v.name v.type?) acc

/-- Loop over the scopes.  A thrown `variables` request propagates to the
surrounding try/catch of `getScopeVariables`, so the scopes after it are
skipped and the variables collected so far are returned. -/
def processScopes (stub : ProtocolStub) : List DapScope → VarAcc → VarAcc
  | [], acc => acc
  | sc :: rest, acc =>
    if sc.variablesReference ≤ 0 then processScopes stub rest acc
    else
      match stub.variablesFor sc.variablesReference with
      | none => acc
      | some vs => processScopes stub rest (processScopeVars stub vs acc)

/-- `getScopeVariables(session, frameId)`: a thrown or empty `scopes`
response yields the empty list. -/
def getScopeVariables (stub : ProtocolStub) (frameId : Int) : List ScopeVariable :=
  match stub.scopes frameId with
  | none => []
  | some scopes => (processScopes stub scopes ⟨[], []⟩).vars

/-- The frame selection of `getFrameAndVariables`: the first frame whose
source path is truthy and on disk, with the top frame as fallback. -/
def pickTargetFrame (stub : ProtocolStub) (f0 : StackFrame) (fs : List StackFrame) :
    StackFrame :=
  ((f0 :: fs).find? (fun f =>
    match f.sourcePath? with
    | some p => !p.isEmpty && stub.fileExists p
    | none => false)).getD f0

/-- `getFrameAndVariables(session, threadId)`: one `stackTrace` call, pick
the first frame whose source path is on disk (fallback: the top frame),
then collect its scope variables.  `none` models the `null` returns (no
frames, or a thrown `stackTrace`). -/
def getFrameAndVariables (stub : ProtocolStub) (threadId : Int) :
    Option (Int × List ScopeVariable × Option (List Char)) :=
  match stub.stackTrace threadId with
  | none => none
  | some [] => none
  | some (f0 :: fs) =>
    let target := pickTargetFrame stub f0 fs
    some (target.id, getScopeVariables stub target.id, target.sourcePath?)

/-! ### Object serializer (`src/services/debugService.ts`) -/

/-- `MAX_OBJECT_DEPTH` from `config/constants.ts`. -/
def MAX_OBJECT_DEPTH : Int := 5

/-- A JavaScript number as produced by `Number(string)`.  Finite values
are modelled exactly as rationals (float rounding is not modelled; the
classification NaN / finite / infinite is exact). -/
inductive JsNumber where
  | nan
  | finite (q : ℚ)
  | posInf
  | negInf
deriving DecidableEq, Repr

/-- Leading digit run and the remainder. -/
def takeDigits (s : List Char) : List Char × List Char :=
  (s.takeWhile Char.isDigit, s.dropWhile Char.isDigit)

/-- Value of a decimal digit string. -/
def natOfDigits (s : List Char) : Nat :=
  s.foldl (fun a c => a * 10 + (c.toNat - 48)) 0

/-- Unsigned decimal literal (digits, optional fraction, optional
exponent); `none` when the characters do not form exactly such a literal. -/
def parseDec (t : List Char) : Option ℚ :=
  let (ip, r1) := takeDigits t
  let (fp, r2) := match r1 with
    | '.' :: r => takeDigits r
    | _ => ([], r1)
  if ip = [] && fp = [] then none
  else
    let mant : ℚ := (natOfDigits ip : ℚ) + (natOfDigits fp : ℚ) / ((10 : ℚ) ^ fp.length)
    match r2 with
    | [] => some mant
    | e :: r3 =>
      if e = 'e' || e = 'E' then
        let (esign, r4) : Int × List Char := match r3 with
          | '+' :: r => (1, r)
          | '-' :: r => (-1, r)
          | _ => (1, r3)
        let (ed, r5) := takeDigits r4
        if ed = [] || !r5.isEmpty then none
        else some (mant * (10 : ℚ) ^ (esign * (natOfDigits ed : Int)))
      else none

/-- Value of a digit in radix up to 16. -/
def hexDigitVal (c : Char) : Nat :=
  if c.isDigit then c.toNat - 48
  else if 'a' ≤ c && c ≤ 'f' then c.toNat - 87
  else if 'A' ≤ c && c ≤ 'F' then c.toNat - 55
  else 0

/-- Non-decimal integer literal body (after the `0x`/`0o`/`0b` marker). -/
def radixNumber (base : Nat) (isD : Char → Bool) (t : List Char) : JsNumber :=
  if !t.isEmpty && t.all isD then
    .finite ((t.foldl (fun a c => a * base + hexDigitVal c) 0 : Nat) : ℚ)
  else .nan

/-- Signed decimal literal or `Infinity`. -/
def signedDec (t : List Char) : JsNumber :=
  let (neg, r) : Bool × List Char := match t with
    | '+' :: r => (false, r)
    | '-' :: r => (true, r)
    | _ => (false, t)
  if r = "Infinity".toList then (if neg then .negInf else .posInf)
  else match parseDec r with
    | some q => .finite (if neg then -q else q)
    | none => .nan

/-- `Number(string)` (the ECMAScript StringToNumber conversion):
whitespace-trimmed; empty is `0`; a non-decimal `0x`/`0o`/`0b` literal
(sign not allowed), else a signed decimal literal or `Infinity`; anything
else is NaN. -/
def jsNumber (s : List Char) : JsNumber :=
  let t := jsTrim s
  if t = [] then .finite 0
  else match t with
    | '0' :: c :: rest =>
      if c = 'x' || c = 'X' then radixNumber 16 (fun d => d.isDigit || ('a' ≤ d && d ≤ 'f') || ('A' ≤ d && d ≤ 'F')) rest
      else if c = 'o' || c = 'O' then radixNumber 8 (fun d => '0' ≤ d && d ≤ '7') rest
      else if c = 'b' || c = 'B' then radixNumber 2 (fun d => d = '0' || d = '1') rest
      else signedDec t
    | _ => signedDec t

/-- Serialized JSON-like values built by the serializer.  The depth/error
sentinels of the source are the plain strings they are in the code. -/
inductive Json where
  | num (n : JsNumber)
  | bool (b : Bool)
  | null
  | str (s : List Char)
  | obj (fields : List (List Char × Json))
deriving Repr

/-- The depth-limit sentinel returned at `depth >= maxDepth`. -/
def depthSentinel : Json := .str "\x7b ... \x7d".toList

/-- Characters excluded by the JS regex `.` (no line terminators; ASCII
fragment). -/
def nlFree (s : List Char) : Bool := s.all (fun c => !(c = '\n' || c = '\r'))

/-- Match of regex  `\s*` open `.*` close `.*$`  beginning at this
position: a whitespace run leading to an opening character that is
followed by the closing character somewhere later, with no line
terminator afterwards (the `$` anchor together with `.` excluding line
terminators forces the rest of the string to be one line). -/
def tailMatch (op cl : Char) : List Char → Bool
  | [] => false
  | c :: cs => (c = op && cs.contains cl && nlFree cs) || (isJsWs c && tailMatch op cl cs)

/-- JS non-global replace of regex  `\s*` open `.*` close `.*$`  by the
empty string: cut at the leftmost position where the pattern matches. -/
def dropTailMatch (op cl : Char) : List Char → List Char
  | [] => []
  | c :: cs => if tailMatch op cl (c :: cs) then [] else c :: dropTailMatch op cl cs

/-- Is a single or double quote. -/
def isQuoteChar (c : Char) : Bool := c = '"' || c = squote

/-- JS replace of `^["'](.*)["']$` by the captured group: strips one layer
of surrounding quotes when both ends are quotes and the inside is one
line. -/
def stripOuterQuotes (s : List Char) : List Char :=
  match s with
  | [] => s
  | [_] => s
  | c :: d :: ds =>
    if isQuoteChar c && isQuoteChar ((d :: ds).getLast (List.cons_ne_nil d ds)) &&
       nlFree (d :: ds).dropLast
    then (d :: ds).dropLast else s

/-- JS replace of `^"(.*)"$` by the captured group (double quotes only),
as used by `parsePrimitiveValue`. -/
def stripOuterDQuotes (s : List Char) : List Char :=
  match s with
  | [] => s
  | [_] => s
  | c :: d :: ds =>
    if c = '"' && (d :: ds).getLast (List.cons_ne_nil d ds) = '"' &&
       nlFree (d :: ds).dropLast
    then (d :: ds).dropLast else s

/-- `cleanPropertyName(name)`. -/
def cleanPropertyName (name : List Char) : List Char :=
  let n := jsTrim name
  let n := dropTailMatch lbrace rbrace n
  let n := dropTailMatch '[' ']' n
  let n := if n.contains ' ' then n.takeWhile (fun c => !(c = ' ')) else n
  jsTrim (stripOuterQuotes n)

/-- `parsePrimitiveValue(value)`: number sniffing first, then booleans,
then null, else a string with one layer of double quotes stripped. -/
def parsePrimitiveValue (value : List Char) : Json :=
  if jsNumber value ≠ .nan ∧ value ≠ [] then .num (jsNumber value)
  else if value = "true".toList then .bool true
  else if value = "false".toList then .bool false
  else if value = "null".toList then .null
  else .str (stripOuterDQuotes value)

/-- `getObjectProperties(session, variablesReference)`: one `variables`
request; a thrown request yields `[]`; synthetic and private entries are
filtered out. -/
def getObjectProperties (stub : ProtocolStub) (ref : Int) : List RawVariable :=
  match stub.variablesFor ref with
  | none => []
  | some vs => vs.filter (fun v =>
      !(v.name = "Raw View".toList || v.name = "Results View".toList ||
        startsWithChar '_' v.name || startsWithChar '[' v.name))

/-- JS object property assignment `result[key] = v`: overwrite in place if
the key exists, else append. -/
def objAssign : List (List Char × Json) → List Char → Json → List (List Char × Json)
  | [], k, v => [(k, v)]
  | (k0, v0) :: rest, k, v =>
    if k0 = k then (k0, v) :: rest else (k0, v0) :: objAssign rest k v

/-- The `for (const prop of properties)` loop of `serializeObjectToJson`,
parameterized by the recursive serialization of nested handles. -/
def serializeFieldsGo (recur : Int → Json × Nat) :
    List RawVariable → List (List Char × Json) × Nat → List (List Char × Json) × Nat
  | [], acc => acc
  | p :: rest, acc =>
    let cn := cleanPropertyName p.name
    let acc2 :=
      if p.variablesReference > 0 then
        let r := recur p.variablesReference
        (objAssign acc.1 cn r.1, acc.2 + r.2)
      else (objAssign acc.1 cn (parsePrimitiveValue p.value), acc.2)
    serializeFieldsGo recur rest acc2

/-- Fuel-indexed core of `serializeObjectToJson`; the fuel is the
remaining depth budget `maxDepth - depth`, so fuel `0` is exactly the
`depth >= maxDepth` guard.  The second component counts `variables`
protocol requests issued. -/
def serializeGo (stub : ProtocolStub) : Nat → Int → Json × Nat
  | 0, _ => (depthSentinel, 0)
  | fuel + 1, ref =>
    let fc := serializeFieldsGo (fun r => serializeGo stub fuel r)
      (getObjectProperties stub ref) ([], 0)
    (.obj fc.1, fc.2 + 1)

/-- `serializeObjectToJson(session, variablesReference, depth, maxDepth)`,
paired with the number of `variables` requests issued.  (The source's
outer catch branch returning an error sentinel is unreachable: every
callee catches its own failures.) -/
def serializeObjectToJson (stub : ProtocolStub) (ref : Int) (depth : Int)
    (maxDepth : Int := MAX_OBJECT_DEPTH) : Json × Nat :=
  serializeGo stub (maxDepth - depth).toNat ref

/-! ### Expression evaluator (`services/debugService.ts`, `evaluate.ts`,
and the `repl` variant of `debug/evaluator.ts`) -/

/-- A DAP `evaluate` request body. -/
structure EvalRequest where
  expression : List Char
  frameId : Int
  context : List Char
deriving DecidableEq, Repr

/-- The request built by `evaluateExpression` in `services/debugService.ts`
(and identically in `evaluate.ts`): context mode `watch`. -/
def evalRequestWatch (frameId : Int) (expression : List Char) : EvalRequest :=
  { expression := expression, frameId := frameId, context := "watch".toList }

/-- The request built by the `evaluateExpression` variant in
`debug/evaluator.ts`: context mode `repl` (Debug Console). -/
def evalRequestRepl (frameId : Int) (expression : List Char) : EvalRequest :=
  { expression := expression, frameId := frameId, context := "repl".toList }

/-- A DAP `evaluate` response; absent fields are `none`. -/
structure EvalResponse where
  result? : Option (List Char) := none
  type? : Option (List Char) := none
  variablesReference? : Option Int := none
  error? : Option (List Char) := none

/-- Outcome of awaiting `customRequest('evaluate', ...)`: either the
promise rejected (with an optional error message) or it resolved
(possibly to an undefined body). -/
inductive EvalOutcome where
  | thrown (message? : Option (List Char))
  | ok (response? : Option EvalResponse)

/-- JS truthiness of an optional string: `undefined` and the empty string
are falsy. -/
def truthyStr : Option (List Char) → Bool
  | none => false
  | some s => !s.isEmpty

/-- The `EvaluationResult` record returned to callers. -/
structure EvaluationResult where
  result : List Char
  type? : Option (List Char) := none
  variablesReference? : Option Int := none
deriving DecidableEq, Repr

/-- `evaluateExpression(session, frameId, expression)` from
`services/debugService.ts`, with the protocol call stubbed by `respond`. -/
def evaluateExpression (respond : EvalRequest → EvalOutcome) (frameId : Int)
    (expression : List Char) : Option EvaluationResult :=
  match respond (evalRequestWatch frameId expression) with
  | .ok none => none
  | .ok (some r) =>
    if truthyStr r.result? then
      some { result := r.result?.getD [], type? := r.type?,
             variablesReference? := r.variablesReference? }
    else if truthyStr r.error? then
      some { result := "Error: ".toList ++ r.error?.getD [] }
    else none
  | .thrown m? =>
    some { result := "Error: ".toList ++
      (if truthyStr m? then m?.getD [] else "Failed to evaluate expression".toList) }

/-! ### Session state tracker (`debug/debugTracker.ts` plus the
`registerDebugTracker` callback in `extension.ts`) -/

/-- `lastStoppedState` payload (the session is fixed: one tracker per
session). -/
structure StoppedState where
  threadId : Int
  frameId : Int
deriving DecidableEq, Repr

/-- Environment of `updateEvalScaffold`: the temp-file checks, the current
buffer content, the usings produced by `getSourceFileUsings` (which never
throws — it returns `[]` on any failure), and whether the buffer write
succeeds (a throw there is caught and yields `undefined`). -/
structure ScaffoldEnv where
  tempFileExists : Bool
  currentContent : List Char
  sourceUsings : List (List Char)
  writeOk : Bool

/-- `updateEvalScaffold(session, frameId, threadId)` on the tracker path
(`threadId` provided): the atomic pull via `getFrameAndVariables`, then
scaffold regeneration preserving the user expression; returns the
resolved frame id together with the regenerated content, or `none` for
each `return undefined` of the source. -/
def updateEvalScaffold (stub : ProtocolStub) (env : ScaffoldEnv) (threadId : Int) :
    Option (Int × List Char) :=
  if !env.tempFileExists then none
  else
    match getFrameAndVariables stub threadId with
    | none => none
    | some (fid, vars, _sp) =>
      let userExpression :=
        if isScaffoldFile env.currentContent then extractUserExpression env.currentContent
        else jsTrim env.currentContent
      let newContent := generateScaffold vars env.sourceUsings userExpression
      if newContent = env.currentContent then some (fid, newContent)
      else if env.writeOk then some (fid, newContent) else none

/-- The callback registered by `registerDebugTracker` in `extension.ts`:
publish the stopped state exactly when `updateEvalScaffold` resolved to a
frame id (no staleness check). -/
def onStoppedCallback (stub : ProtocolStub) (env : ScaffoldEnv) (threadId : Int)
    (state : Option StoppedState) : Option StoppedState :=
  match updateEvalScaffold stub env threadId with
  | some (fid, _) => some ⟨threadId, fid⟩
  | none => state

/-- Lifecycle events interleaved with asynchronous pull completions.  A
`stopped` event schedules a pull (the 50ms-delayed `onStopped` call);
`pullResolved i r` is the completion of the `i`-th pending pull, with `r`
the value `updateEvalScaffold` resolved to (`none` for `undefined`).
Pulls may complete in any order relative to later lifecycle events. -/
inductive TrackerEvent where
  | stopped (threadId : Int)
  | continued
  | terminated
  | pullResolved (idx : Nat) (result : Option Int)
deriving DecidableEq, Repr

/-- Tracker state: the published `lastStoppedState` plus the thread ids of
pulls that have started but not yet completed. -/
structure TrackerState where
  lastStoppedState : Option StoppedState
  pendingPulls : List Int
deriving DecidableEq, Repr

/-- One step of `CSharpDebugTracker.onDidSendMessage` (for lifecycle
events) or of a pull completion (running the tail of the registered
callback: `setLastStoppedFrameId` iff the pull resolved to a frame id). -/
def trackerStep (s : TrackerState) : TrackerEvent → TrackerState
  | .stopped tid => { s with pendingPulls := s.pendingPulls ++ [tid] }
  | .continued => { s with lastStoppedState := none }
  | .terminated => { s with lastStoppedState := none }
  | .pullResolved i res =>
    match s.pendingPulls[i]? with
    | none => s
    | some tid =>
      let s' := { s with pendingPulls := s.pendingPulls.eraseIdx i }
      match res with
      | some fid => { s' with lastStoppedState := some ⟨tid, fid⟩ }
      | none => s'

/-- Run a sequence of events from the initial state (`Running`, no pulls). -/
def trackerRun (events : List TrackerEvent) : TrackerState :=
  events.foldl trackerStep ⟨none, []⟩

/-! ### General lemmas about the string utilities -/

theorem isPre_iff_append {n l : List Char} : isPre n l = true ↔ ∃ t, l = n ++ t := by
  induction n generalizing l with
  | nil => simp [isPre]
  | cons a as ih =>
    cases l with
    | nil => simp [isPre]
    | cons b bs =>
      simp only [isPre, Bool.and_eq_true, decide_eq_true_eq, List.cons_append,
        List.cons.injEq, ih]
      constructor
      · rintro ⟨rfl, t, rfl⟩; exact ⟨t, rfl, rfl⟩
      · rintro ⟨t, rfl, rfl⟩; exact ⟨rfl, t, rfl⟩

theorem isPre_append_left {n a : List Char} (b : List Char) (h : isPre n a = true) :
    isPre n (a ++ b) = true := by
  obtain ⟨t, rfl⟩ := isPre_iff_append.mp h
  exact isPre_iff_append.mpr ⟨t ++ b, by simp⟩

theorem isPre_of_append_le {n a b : List Char} (h : isPre n (a ++ b) = true)
    (hl : n.length ≤ a.length) : isPre n a = true := by
  obtain ⟨t, ht⟩ := isPre_iff_append.mp h
  refine isPre_iff_append.mpr ⟨a.drop n.length, ?_⟩
  have h1 : a.take n.length = n := by
    have := congrArg (List.take n.length) ht
    rwa [List.take_append_of_le_length hl, List.take_left] at this
  conv_lhs => rw [← List.take_append_drop n.length a, h1]

theorem get?_of_isPre {n l : List Char} (h : isPre n l = true) {j : Nat}
    (hj : j < n.length) : l.get? j = n.get? j := by
  obtain ⟨t, rfl⟩ := isPre_iff_append.mp h
  exact List.get?_append hj

theorem containsSeq_of_isPre_drop {n h : List Char} {i : Nat}
    (hp : isPre n (h.drop i) = true) : containsSeq n h = true := by
  induction h generalizing i with
  | nil =>
    simp only [List.drop_nil] at hp
    cases n with
    | nil => simp [containsSeq]
    | cons a as => simp [isPre] at hp
  | cons c cs ih =>
    cases i with
    | zero => simp only [List.drop_zero] at hp; simp [containsSeq, hp]
    | succ k =>
      simp only [List.drop_succ_cons] at hp
      simp [containsSeq, ih hp]

theorem isPre_drop_of_containsSeq {n h : List Char} (hc : containsSeq n h = true) :
    ∃ i, isPre n (h.drop i) = true := by
  induction h with
  | nil =>
    refine ⟨0, ?_⟩
    cases n with
    | nil => simp [isPre]
    | cons a as => simp [containsSeq] at hc
  | cons c cs ih =>
    simp only [containsSeq, Bool.or_eq_true] at hc
    rcases hc with hc | hc
    · exact ⟨0, by simpa using hc⟩
    · obtain ⟨i, hi⟩ := ih hc
      exact ⟨i + 1, by simpa using hi⟩

theorem mem_of_containsSeq_cons {a : Char} {tl h : List Char}
    (hc : containsSeq (a :: tl) h = true) : a ∈ h := by
  obtain ⟨i, hi⟩ := isPre_drop_of_containsSeq hc
  obtain ⟨t, ht⟩ := isPre_iff_append.mp hi
  have : a ∈ h.drop i := by rw [ht]; simp
  exact List.mem_of_mem_drop this

theorem firstOccur?_append (n a b : List Char)
    (hin : ∀ i, i < a.length → isPre n ((a ++ b).drop i) = false)
    (hpre : isPre n b = true) :
    firstOccur? n (a ++ b) = some a.length := by
  induction a with
  | nil =>
    simp only [List.nil_append, List.length_nil]
    cases b with
    | nil =>
      cases n with
      | nil => simp [firstOccur?]
      | cons x xs => simp [isPre] at hpre
    | cons c cs => simp [firstOccur?, hpre]
  | cons x a' ih =>
    have h0 := hin 0 (by simp)
    simp only [List.drop_zero, List.cons_append] at h0
    have hrec := ih (fun i hi => by
      have := hin (i + 1) (by simpa using Nat.succ_lt_succ hi)
      simpa using this)
    simp only [List.cons_append, firstOccur?, List.append_eq]
    rw [if_neg (by simp [h0]), hrec]
    simp

theorem lastOccur?_append {n b : List Char} (a : List Char) {j : Nat}
    (h : lastOccur? n b = some j) : lastOccur? n (a ++ b) = some (a.length + j) := by
  induction a with
  | nil => simpa using h
  | cons x a' ih =>
    rw [List.cons_append]
    have heq : lastOccur? n (x :: (a' ++ b)) =
        match lastOccur? n (a' ++ b) with
        | some i => some (i + 1)
        | none => if isPre n (x :: (a' ++ b)) = true then some 0 else none := rfl
    rw [heq, ih]
    simp only [List.length_cons, Option.some.injEq]
    omega


theorem drop_head_mem {l : List Char} {m : Nat} (h : m < l.length) :
    ∃ c t, l.drop m = c :: t ∧ c ∈ l := by
  induction l generalizing m with
  | nil => simp at h
  | cons x xs ih =>
    cases m with
    | zero => exact ⟨x, xs, rfl, by simp⟩
    | succ k =>
      obtain ⟨c, t, hct, hc⟩ := ih (by simpa using Nat.lt_of_succ_lt_succ h)
      exact ⟨c, t, by simpa using hct, by simp [hc]⟩

/-- No occurrence of `n` can begin inside `Q ++ newline ++ spaces` when
`n` does not occur inside that prefix on its own, `n` is newline-free, and
`n` begins with a character that is neither a newline nor a space: an
occurrence that straddles the boundary would have to cover the newline or
start on a space. -/
theorem no_isPre_in_prefix {n : List Char} {c0 : Char} {n' Q W b : List Char}
    (hn : n = c0 :: n') (hc0nl : c0 ≠ '\n') (hc0sp : c0 ≠ ' ')
    (hW : ∀ c ∈ W, c = ' ')
    (hnnl : '\n' ∉ n)
    (hP : containsSeq n (Q ++ '\n' :: W) = false) :
    ∀ i, i < (Q ++ '\n' :: W).length → isPre n ((Q ++ '\n' :: W ++ b).drop i) = false := by
  intro i hi
  by_contra hcontra
  have hpre : isPre n ((Q ++ '\n' :: W ++ b).drop i) = true := by
    revert hcontra; cases hval : isPre n ((Q ++ '\n' :: W ++ b).drop i) <;> simp
  rcases Nat.lt_or_ge i (Q.length + 1) with hlt | hge
  · -- the occurrence begins at or before the newline separator
    rcases Nat.lt_or_ge i Q.length with hlt0 | hge0
    · rcases le_or_lt (i + n.length) (Q ++ '\n' :: W).length with hfit | hstraddle
      · -- the occurrence fits inside the prefix: contradiction with `hP`
        have hsplit : (Q ++ '\n' :: W ++ b) = (Q ++ '\n' :: W) ++ b := by simp
        rw [hsplit, List.drop_append_of_le_length (by omega)] at hpre
        have hfit' : n.length ≤ ((Q ++ '\n' :: W).drop i).length := by
          simp only [List.length_drop]
          omega
        have := isPre_of_append_le hpre hfit'
        rw [containsSeq_of_isPre_drop this] at hP
        exact Bool.true_eq_false.mp hP
      · -- the occurrence straddles the boundary, so it covers the newline
        have hj : Q.length - i < n.length := by
          simp only [List.length_append, List.length_cons] at hstraddle
          omega
        have hg := get?_of_isPre hpre hj
        have hnl : (Q ++ '\n' :: W ++ b).get? Q.length = some '\n' := by
          have hterm : Q ++ '\n' :: W ++ b = Q ++ ('\n' :: (W ++ b)) := by simp
          rw [hterm, List.get?_append_right (Nat.le_refl Q.length)]
          simp
        have hidx : ((Q ++ '\n' :: W ++ b).drop i).get? (Q.length - i) =
            (Q ++ '\n' :: W ++ b).get? Q.length := by
          rw [List.get?_drop]
          congr 1
          omega
        rw [hidx, hnl] at hg
        have : '\n' ∈ n := List.get?_mem hg.symm
        exact hnnl this
    · -- the occurrence begins exactly at the newline
      have hieq : i = Q.length := by omega
      subst hieq
      have hdrop : (Q ++ '\n' :: W ++ b).drop Q.length = '\n' :: (W ++ b) := by
        have : Q ++ '\n' :: W ++ b = Q ++ ('\n' :: (W ++ b)) := by simp
        rw [this, List.drop_left]
      rw [hdrop, hn] at hpre
      simp only [isPre, Bool.and_eq_true, decide_eq_true_eq] at hpre
      exact hc0nl hpre.1
  · -- the occurrence begins on one of the trailing spaces
    have hm : i - (Q.length + 1) < W.length := by
      simp only [List.length_append, List.length_cons] at hi
      omega
    obtain ⟨c, t, hct, hc⟩ := drop_head_mem (l := W) hm
    have hdrop : (Q ++ '\n' :: W ++ b).drop i = c :: (t ++ b) := by
      have h1 : Q ++ '\n' :: W ++ b = (Q ++ ['\n']) ++ (W ++ b) := by simp
      have h2 : i = (Q ++ ['\n']).length + (i - (Q.length + 1)) := by
        simp only [List.length_append, List.length_cons, List.length_nil]
        omega
      rw [h1, h2, List.drop_append, List.drop_append_of_le_length (Nat.le_of_lt hm), hct]
      simp
    rw [hdrop, hn] at hpre
    simp only [isPre, Bool.and_eq_true, decide_eq_true_eq] at hpre
    exact hc0sp (hpre.1.trans (hW c hc))

/-! ### Faithfulness of the fuel-indexed serializer -/

theorem serializeFieldsGo_eq_foldl (recur : Int → Json × Nat)
    (props : List RawVariable) (acc : List (List Char × Json) × Nat) :
    serializeFieldsGo recur props acc =
      props.foldl (fun acc p =>
        let cn := cleanPropertyName p.name
        if p.variablesReference > 0 then
          let r := recur p.variablesReference
          (objAssign acc.1 cn r.1, acc.2 + r.2)
        else (objAssign acc.1 cn (parsePrimitiveValue p.value), acc.2)) acc := by
  induction props generalizing acc with
  | nil => simp [serializeFieldsGo]
  | cons p rest ih => simp only [serializeFieldsGo, List.foldl_cons, ih]

/-- The wrapper `serializeObjectToJson` satisfies exactly the recursion of
the source: return the sentinel at `depth >= maxDepth` with no protocol
request, else issue one `variables` request and fold over the filtered
properties, recursing at `depth + 1` on nested container handles. -/
theorem serializeObjectToJson_unfold (stub : ProtocolStub) (ref depth maxDepth : Int) :
    serializeObjectToJson stub ref depth maxDepth =
      if maxDepth ≤ depth then (depthSentinel, 0)
      else
        let fc := (getObjectProperties stub ref).foldl (fun acc p =>
          let cn := cleanPropertyName p.name
          if p.variablesReference > 0 then
            let r := serializeObjectToJson stub p.variablesReference (depth + 1) maxDepth
            (objAssign acc.1 cn r.1, acc.2 + r.2)
          else (objAssign acc.1 cn (parsePrimitiveValue p.value), acc.2)) ([], 0)
        (.obj fc.1, fc.2 + 1) := by
  by_cases h : maxDepth ≤ depth
  · have h0 : (maxDepth - depth).toNat = 0 := by omega
    rw [if_pos h]
    unfold serializeObjectToJson
    rw [h0]
    simp [serializeGo]
  · have h1 : (maxDepth - depth).toNat = (maxDepth - (depth + 1)).toNat + 1 := by omega
    rw [if_neg h]
    unfold serializeObjectToJson
    rw [h1]
    simp only [serializeGo, serializeFieldsGo_eq_foldl]

/-! ### Claim theorems -/

/-- C5: for every protocol stub, container handle, and integer depths with
`depth ≥ maxDepth`, the serializer returns the depth-limit sentinel and
issues zero `variables` protocol requests (the request counter of the
model is `0`). -/
theorem C5_serialize_depth_guard (stub : ProtocolStub) (ref depth maxDepth : Int)
    (h : maxDepth ≤ depth) :
    serializeObjectToJson stub ref depth maxDepth = (depthSentinel, 0) := by
  unfold serializeObjectToJson
  have h0 : (maxDepth - depth).toNat = 0 := by omega
  rw [h0]
  simp [serializeGo]

/-- A trivial stub for the C5 witness. -/
def stubC5 : ProtocolStub :=
  { stackTrace := fun _ => none, scopes := fun _ => none,
    variablesFor := fun _ => none, fileExists := fun _ => false }

/-- Witness for C5 at the concrete boundary `depth = maxDepth = 5`. -/
theorem C5_serialize_depth_guard_witness :
    (5 : Int) ≤ 5 ∧ serializeObjectToJson stubC5 1 5 5 = (depthSentinel, 0) :=
  ⟨le_refl 5, C5_serialize_depth_guard stubC5 1 5 5 (le_refl 5)⟩

/-- C3: the evaluate request constructed by `evaluateExpression` in
`services/debugService.ts` (and `evaluate.ts`) carries the restrictive
watch context, which differs from the closure-capable repl context that
the claim requires and that the `debug/evaluator.ts` variant uses. -/
theorem C3_watch_not_repl :
    (evalRequestWatch 1 "x".toList).context = "watch".toList ∧
    (evalRequestRepl 1 "x".toList).context = "repl".toList ∧
    "watch".toList ≠ "repl".toList :=
  ⟨rfl, rfl, by decide⟩

/-- C1: evaluating the tracker on the failing event sequence — a stopped
event, a continued event that clears the state, then the stale pull of
the stopped event resolving — shows the callback re-publishing a stopped
state after `continued` cleared it, because the callback has no
generation check. -/
theorem C1_stale_pull_overwrites :
    trackerRun [.stopped 1, .continued, .pullResolved 0 (some 7)] =
      ⟨some ⟨1, 7⟩, []⟩ ∧
    (trackerRun [.stopped 1, .continued, .pullResolved 0 (some 7)]).lastStoppedState ≠
      none := by
  refine ⟨by decide, by decide⟩

/-- C9: for every protocol stub, frame id, and expression: a thrown (or
timed-out) evaluate call, and an error response without a successful
result, are both converted into a normally returned `EvaluationResult`
whose text begins with `Error:` (the embedding is a total function, so no
exception can escape). -/
theorem C9_eval_errors_normalized (respond : EvalRequest → EvalOutcome) (frameId : Int)
    (e : List Char) :
    (∀ m?, respond (evalRequestWatch frameId e) = .thrown m? →
      ∃ res, evaluateExpression respond frameId e = some res ∧
        isPre "Error:".toList res.result = true) ∧
    (∀ r, respond (evalRequestWatch frameId e) = .ok (some r) →
      truthyStr r.result? = false → truthyStr r.error? = true →
      ∃ res, evaluateExpression respond frameId e = some res ∧
        isPre "Error:".toList res.result = true) := by
  constructor
  · intro m? h
    have heval : evaluateExpression respond frameId e =
        some { result := "Error: ".toList ++
          (if truthyStr m? then m?.getD [] else "Failed to evaluate expression".toList) } := by
      unfold evaluateExpression
      rw [h]
    exact ⟨_, heval, isPre_append_left _ (by decide)⟩
  · intro r h hres herr
    have heval : evaluateExpression respond frameId e =
        some { result := "Error: ".toList ++ r.error?.getD [] } := by
      unfold evaluateExpression
      rw [h]
      simp [hres, herr]
    exact ⟨_, heval, isPre_append_left _ (by decide)⟩

/-- A stub whose evaluate call always throws, for the C9 witness. -/
def respondC9 : EvalRequest → EvalOutcome := fun _ => .thrown (some "boom".toList)

theorem mem_of_mem_jsTrimStart {a : Char} {l : List Char} (h : a ∈ jsTrimStart l) : a ∈ l :=
  (List.dropWhile_sublist isJsWs).mem h

theorem mem_of_mem_jsTrimEnd {a : Char} {l : List Char} (h : a ∈ jsTrimEnd l) : a ∈ l := by
  unfold jsTrimEnd at h
  rw [List.mem_reverse] at h
  exact List.mem_reverse.mp ((List.dropWhile_sublist isJsWs).mem h)

theorem mem_of_mem_jsTrim {a : Char} {l : List Char} (h : a ∈ jsTrim l) : a ∈ l :=
  mem_of_mem_jsTrimStart (mem_of_mem_jsTrimEnd h)

theorem mem_of_mem_sbaGo {a : Char} {b : Bool} {s : List Char} (h : a ∈ sbaGo b s) :
    a ∈ s := by
  induction s generalizing b with
  | nil => simp [sbaGo] at h
  | cons c cs ih =>
    simp only [sbaGo] at h
    split_ifs at h with h1 h2
    · exact List.mem_cons_of_mem c (ih h)
    · exact List.mem_cons_of_mem c (ih h)
    · rcases List.mem_cons.mp h with h | h
      · exact h ▸ List.mem_cons_self c cs
      · exact List.mem_cons_of_mem c (ih h)

theorem mem_of_mem_stripBacktickArity {a : Char} {s : List Char}
    (h : a ∈ stripBacktickArity s) : a ∈ s :=
  mem_of_mem_sbaGo h

theorem finalTypeCheck_total (u : List Char) :
    finalTypeCheck u ≠ [] ∧ (finalTypeCheck u).all (fun c => !isDenylistChar c) = true := by
  unfold finalTypeCheck
  split_ifs with h1 h2
  · decide
  · decide
  · refine ⟨h2, ?_⟩
    rw [List.all_eq_true]
    intro c hc
    simp only [Bool.not_eq_true']
    have hany : u.any isDenylistChar = false := by
      revert h1; cases u.any isDenylistChar <;> simp
    rw [List.any_eq_false] at hany
    simpa using hany c hc

theorem sanitizeTypeCore_total (t : List Char) :
    sanitizeTypeCore t ≠ [] ∧ (sanitizeTypeCore t).all (fun c => !isDenylistChar c) = true := by
  unfold sanitizeTypeCore
  by_cases h1 : t = []
  · rw [if_pos h1]; decide
  · rw [if_neg h1]
    by_cases h2 : (containsSeq "<>".toList t || startsWithChar '<' t) = true
    · rw [if_pos h2]; decide
    · rw [if_neg h2]; exact finalTypeCheck_total _

/-- C6: `sanitizeType` is total on every input (including `undefined`):
the result is never empty and never contains a denylist character.  (The
embedding is a total function, so it cannot throw.) -/
theorem C6_sanitizeType_total (ty? : Option (List Char)) :
    sanitizeType ty? ≠ [] ∧ (sanitizeType ty?).all (fun c => !isDenylistChar c) = true := by
  match ty? with
  | none => exact (by decide)
  | some ty =>
    show (if (ty = [] || ty = "<error>".toList || ty = "void".toList : Bool) = true then dynType
          else sanitizeTypeCore (jsTrim (removeFirstBracePair ty))) ≠ [] ∧
         ((if (ty = [] || ty = "<error>".toList || ty = "void".toList : Bool) = true then dynType
          else sanitizeTypeCore (jsTrim (removeFirstBracePair ty))).all
            (fun c => !isDenylistChar c)) = true
    split_ifs with h
    · decide
    · exact sanitizeTypeCore_total _

/-- Test of the spec's phrase "a comma located outside any
generic-argument angle brackets" (a second, spec-side definition used
only to state C7 against `sanitizeType`): scans the string tracking
angle-bracket nesting depth. -/
def specCommaOutsideGenerics (s : List Char) : Bool := go 0 s where
  go : Nat → List Char → Bool
  | _, [] => false
  | d, c :: cs =>
    if c = '<' then go (d + 1) cs
    else if c = '>' then go (d - 1) cs
    else if c = ',' && d = 0 then true
    else go d cs

/-- C7 counterexample: the type string `List<int>, mscorlib` has a comma
outside its generic angle brackets, yet `sanitizeType` returns it
unchanged — the assembly-qualification suffix is not truncated, because
the code only truncates when the string contains no `<` at all. -/
theorem C7_counterexample :
    specCommaOutsideGenerics (jsTrim (removeFirstBracePair "List<int>, mscorlib".toList)) = true ∧
    sanitizeType (some "List<int>, mscorlib".toList) = "List<int>, mscorlib".toList ∧
    (sanitizeType (some "List<int>, mscorlib".toList)).contains ',' = true := by
  refine ⟨by decide, by decide, by decide⟩

theorem finalTypeCheck_comma_free {u : List Char} (h : ',' ∉ u) :
    ',' ∉ finalTypeCheck u := by
  unfold finalTypeCheck
  split_ifs with h1 h2
  · decide
  · decide
  · exact h

/-- C7 (amended): truncation at the first comma happens exactly when the
preview-stripped, trimmed type string contains a comma and contains no
`<` character at all; the result is then the final validation of the
backtick-stripped, trimmed prefix before the first comma, and in
particular contains no comma. -/
theorem C7_comma_truncation (ty : List Char)
    (hcomma : ',' ∈ jsTrim (removeFirstBracePair ty))
    (hlt : '<' ∉ jsTrim (removeFirstBracePair ty)) :
    sanitizeType (some ty) =
      finalTypeCheck (stripBacktickArity
        (jsTrim ((jsTrim (removeFirstBracePair ty)).takeWhile (fun c => !(c = ','))))) ∧
    ',' ∉ sanitizeType (some ty) := by
  have hcore : ∀ t : List Char, ',' ∈ t → '<' ∉ t →
      sanitizeTypeCore t =
        finalTypeCheck (stripBacktickArity (jsTrim (t.takeWhile (fun c => !(c = ','))))) ∧
      ',' ∉ sanitizeTypeCore t := by
    intro t hc hl
    have htne : t ≠ [] := by rintro rfl; simp at hc
    have hcb : t.contains ',' = true := by simpa using hc
    have hlb : t.contains '<' = false := by simpa using hl
    have hcs : containsSeq ['<', '>'] t = false := by
      cases hval : containsSeq ['<', '>'] t with
      | false => rfl
      | true => exact absurd (mem_of_containsSeq_cons hval) hl
    have hsw : startsWithChar '<' t = false := by
      cases t with
      | nil => rfl
      | cons c cs =>
        have : c ≠ '<' := fun hcl => hl (hcl ▸ List.mem_cons_self c cs)
        simp [startsWithChar, this]
    have hnc : ',' ∉ stripBacktickArity (jsTrim (t.takeWhile (fun c => !(c = ',')))) := by
      intro hmem
      have h1 := mem_of_mem_jsTrim (mem_of_mem_stripBacktickArity hmem)
      have h2 := List.mem_takeWhile_imp h1
      simp at h2
    have heq : sanitizeTypeCore t =
        finalTypeCheck (stripBacktickArity (jsTrim (t.takeWhile (fun c => !(c = ','))))) := by
      unfold sanitizeTypeCore
      rw [if_neg htne, if_neg (by simp [hcs, hsw])]
      simp [hcb, hlb]
      rw [if_pos ⟨hc, hl⟩]
    refine ⟨heq, ?_⟩
    rw [heq]
    exact finalTypeCheck_comma_free hnc
  have hty1 : ty ≠ [] := by rintro rfl; revert hcomma; decide
  have hty2 : ty ≠ "<error>".toList := by rintro rfl; revert hlt; decide
  have hty3 : ty ≠ "void".toList := by rintro rfl; revert hcomma; decide
  have hout : sanitizeType (some ty) = sanitizeTypeCore (jsTrim (removeFirstBracePair ty)) := by
    show (if (ty = [] || ty = "<error>".toList || ty = "void".toList : Bool) = true then dynType
          else sanitizeTypeCore (jsTrim (removeFirstBracePair ty))) =
         sanitizeTypeCore (jsTrim (removeFirstBracePair ty))
    rw [if_neg (by
      simp [hty1, show ty ≠ ['<', 'e', 'r', 'r', 'o', 'r', '>'] from hty2,
        show ty ≠ ['v', 'o', 'i', 'd'] from hty3])]
  rw [hout]
  exact hcore _ hcomma hlt

/-- Witness for C7 (amended) at the concrete input `MyType, MyAssembly`:
the hypotheses hold and the assembly suffix is truncated. -/
theorem C7_comma_truncation_witness :
    (',' ∈ jsTrim (removeFirstBracePair "MyType, MyAssembly".toList)) ∧
    ('<' ∉ jsTrim (removeFirstBracePair "MyType, MyAssembly".toList)) ∧
    sanitizeType (some "MyType, MyAssembly".toList) = "MyType".toList ∧
    ',' ∉ sanitizeType (some "MyType, MyAssembly".toList) := by
  have h := C7_comma_truncation "MyType, MyAssembly".toList (by decide) (by decide)
  exact ⟨by decide, by decide, by rw [h.1]; decide, h.2⟩

/-- The scenario-A stub: `variables(42)` returns the single entry
`Length` with display value `3` and no nested handle. -/
def stubC8 : ProtocolStub :=
  { stackTrace := fun _ => none, scopes := fun _ => none,
    variablesFor := fun r =>
      if r = 42 then some [{ name := "Length".toList, value := "3".toList }] else none,
    fileExists := fun _ => false }

/-- C8: the primitive coercion of display values — a non-empty string
that `Number` accepts becomes that number, `true`/`false` become
booleans, `null` becomes null, anything else keeps one layer of double
quotes stripped — and on the scenario-A stub, `serialize(42, 0, 5)`
returns the object with `Length` coerced to the number `3`. -/
theorem C8_primitive_coercion_and_scenarioA :
    (∀ v : List Char, v ≠ [] → jsNumber v ≠ .nan → parsePrimitiveValue v = .num (jsNumber v)) ∧
    parsePrimitiveValue "true".toList = .bool true ∧
    parsePrimitiveValue "false".toList = .bool false ∧
    parsePrimitiveValue "null".toList = .null ∧
    (∀ v : List Char, jsNumber v = .nan → v ≠ "true".toList → v ≠ "false".toList →
      v ≠ "null".toList → parsePrimitiveValue v = .str (stripOuterDQuotes v)) ∧
    parsePrimitiveValue ('"' :: 'N' :: 'a' :: 'm' :: 'e' :: ['"']) = .str "Name".toList ∧
    jsNumber "3".toList = .finite 3 ∧
    serializeObjectToJson stubC8 42 0 5 =
      (.obj [("Length".toList, .num (.finite 3))], 1) := by
  have h3 : jsNumber "3".toList = JsNumber.finite 3 := by
    show JsNumber.finite
      ((natOfDigits "3".toList : ℚ) + (natOfDigits [] : ℚ) / (10 : ℚ) ^ (0 : Nat)) = .finite 3
    have ha : natOfDigits "3".toList = 3 := rfl
    have hb : natOfDigits [] = 0 := rfl
    rw [ha, hb]
    norm_num
  refine ⟨?_, rfl, rfl, rfl, ?_, rfl, h3, ?_⟩
  · intro v hne hnan
    unfold parsePrimitiveValue
    rw [if_pos ⟨hnan, hne⟩]
  · intro v hnan h1 h2 h4
    unfold parsePrimitiveValue
    rw [if_neg (by simp [hnan]), if_neg h1, if_neg h2, if_neg h4]
  · have hser : serializeObjectToJson stubC8 42 0 5 =
        (.obj [("Length".toList, .num (jsNumber "3".toList))], 1) := rfl
    rw [h3] at hser
    exact hser

/-- Witness for C8: the universally quantified coercion clauses applied at
the concrete display values `3` and `abc`. -/
theorem C8_primitive_coercion_witness :
    parsePrimitiveValue "3".toList = .num (jsNumber "3".toList) ∧
    parsePrimitiveValue "abc".toList = .str "abc".toList :=
  ⟨C8_primitive_coercion_and_scenarioA.1 "3".toList (by decide) (by decide),
   C8_primitive_coercion_and_scenarioA.2.2.2.2.1 "abc".toList (by decide) (by decide)
     (by decide) (by decide)⟩

/-- The C2 counterexample stub: `stackTrace` succeeds with one frame of id
`10`, but the `scopes` request for it throws. -/
def stubC2 : ProtocolStub :=
  { stackTrace := fun tid => if tid = 1 then some [{ id := 10 }] else none,
    scopes := fun _ => none,
    variablesFor := fun _ => none, fileExists := fun _ => false }

/-- The C2 counterexample environment: temp file present, empty buffer,
write succeeds. -/
def envC2 : ScaffoldEnv :=
  { tempFileExists := true, currentContent := [], sourceUsings := [], writeOk := true }

/-- C2 counterexample: the `scopes` step of the pull fails (throws), yet
the callback still replaces the previously published stopped state — the
failure is swallowed inside `getScopeVariables` as an empty variable
list, so the claim that any failing step leaves the state unchanged is
false. -/
theorem C2_counterexample :
    stubC2.scopes 10 = none ∧
    onStoppedCallback stubC2 envC2 1 (some ⟨1, 5⟩) = some ⟨1, 10⟩ ∧
    some (⟨1, 10⟩ : StoppedState) ≠ some (⟨1, 5⟩ : StoppedState) := by
  refine ⟨rfl, by decide, by decide⟩

/-- C2 (amended): the stopped-pull publishes the new stopped state (and
the scaffold content carrying the collected variable set) exactly when
`stackTrace` succeeds with at least one frame, the temp file exists, and
the buffer write succeeds (or is skipped because nothing changed);
a thrown or empty `stackTrace`, a missing temp file, or a failed write
leaves the previously published state unchanged.  Failures of the
`scopes`/`variables` steps do not fail the pull: they only shrink the
collected variable list. -/
theorem C2_publish_conditions (stub : ProtocolStub) (env : ScaffoldEnv) (tid : Int)
    (s : Option StoppedState) :
    (stub.stackTrace tid = none ∨ stub.stackTrace tid = some [] ∨ env.tempFileExists = false →
      updateEvalScaffold stub env tid = none ∧ onStoppedCallback stub env tid s = s) ∧
    (∀ f0 fs, env.tempFileExists = true → stub.stackTrace tid = some (f0 :: fs) →
      (generateScaffold (getScopeVariables stub (pickTargetFrame stub f0 fs).id) env.sourceUsings
          (if isScaffoldFile env.currentContent then extractUserExpression env.currentContent
           else jsTrim env.currentContent) = env.currentContent ∨ env.writeOk = true) →
      updateEvalScaffold stub env tid =
        some ((pickTargetFrame stub f0 fs).id,
          generateScaffold (getScopeVariables stub (pickTargetFrame stub f0 fs).id)
            env.sourceUsings
            (if isScaffoldFile env.currentContent then extractUserExpression env.currentContent
             else jsTrim env.currentContent)) ∧
      onStoppedCallback stub env tid s = some ⟨tid, (pickTargetFrame stub f0 fs).id⟩) ∧
    (∀ f0 fs, env.tempFileExists = true → stub.stackTrace tid = some (f0 :: fs) →
      generateScaffold (getScopeVariables stub (pickTargetFrame stub f0 fs).id) env.sourceUsings
          (if isScaffoldFile env.currentContent then extractUserExpression env.currentContent
           else jsTrim env.currentContent) ≠ env.currentContent → env.writeOk = false →
      updateEvalScaffold stub env tid = none ∧ onStoppedCallback stub env tid s = s) := by
  refine ⟨?_, ?_, ?_⟩
  · intro h
    have hu : updateEvalScaffold stub env tid = none := by
      unfold updateEvalScaffold
      cases htf : env.tempFileExists with
      | false => simp [htf]
      | true =>
        rcases h with h | h | h
        · unfold getFrameAndVariables
          rw [h]
          simp [htf]
        · unfold getFrameAndVariables
          rw [h]
          simp [htf]
        · rw [htf] at h
          cases h
    refine ⟨hu, ?_⟩
    unfold onStoppedCallback
    rw [hu]
  · intro f0 fs htf hst hor
    have hgf : getFrameAndVariables stub tid =
        some ((pickTargetFrame stub f0 fs).id,
          getScopeVariables stub (pickTargetFrame stub f0 fs).id,
          (pickTargetFrame stub f0 fs).sourcePath?) := by
      unfold getFrameAndVariables
      rw [hst]
    have hu : updateEvalScaffold stub env tid =
        some ((pickTargetFrame stub f0 fs).id,
          generateScaffold (getScopeVariables stub (pickTargetFrame stub f0 fs).id)
            env.sourceUsings
            (if isScaffoldFile env.currentContent then extractUserExpression env.currentContent
             else jsTrim env.currentContent)) := by
      unfold updateEvalScaffold
      rw [htf, hgf]
      simp only [Bool.not_true, Bool.false_eq_true, if_false]
      by_cases hx : generateScaffold (getScopeVariables stub (pickTargetFrame stub f0 fs).id)
          env.sourceUsings
          (if isScaffoldFile env.currentContent then extractUserExpression env.currentContent
           else jsTrim env.currentContent) = env.currentContent
      · rw [if_pos hx]
      · rw [if_neg hx]
        rcases hor with hor | hor
        · exact absurd hor hx
        · simp [hor]
    refine ⟨hu, ?_⟩
    unfold onStoppedCallback
    rw [hu]
  · intro f0 fs htf hst hne hwr
    have hgf : getFrameAndVariables stub tid =
        some ((pickTargetFrame stub f0 fs).id,
          getScopeVariables stub (pickTargetFrame stub f0 fs).id,
          (pickTargetFrame stub f0 fs).sourcePath?) := by
      unfold getFrameAndVariables
      rw [hst]
    have hu : updateEvalScaffold stub env tid = none := by
      unfold updateEvalScaffold
      rw [htf, hgf]
      simp only [Bool.not_true, Bool.false_eq_true, if_false]
      rw [if_neg hne, hwr]
      simp
    refine ⟨hu, ?_⟩
    unfold onStoppedCallback
    rw [hu]

/-- The C2 witness stub: one frame (id 3), one scope (handle 7), one
variable `x : int`. -/
def stubC2w : ProtocolStub :=
  { stackTrace := fun tid => if tid = 1 then some [{ id := 3 }] else none,
    scopes := fun fid => if fid = 3 then some [{ variablesReference := 7 }] else none,
    variablesFor := fun r =>
      if r = 7 then some [{ name := "x".toList, type? := some "int".toList, value := [] }]
      else none,
    fileExists := fun _ => false }

/-- The C2 witness environment. -/
def envC2w : ScaffoldEnv :=
  { tempFileExists := true, currentContent := [], sourceUsings := [], writeOk := true }

/-- Witness for C2 (amended) on a fully successful pull. -/
theorem C2_publish_conditions_witness :
    updateEvalScaffold stubC2w envC2w 1 =
      some (3, generateScaffold (getScopeVariables stubC2w 3) [] []) ∧
    onStoppedCallback stubC2w envC2w 1 none = some ⟨1, 3⟩ := by
  have h := (C2_publish_conditions stubC2w envC2w 1 none).2.1 ⟨3, none⟩ [] rfl rfl (Or.inr rfl)
  exact ⟨h.1, h.2⟩

theorem foldl_preserves {α β : Type} (P : α → Prop) (f : α → β → α) (l : List β) (acc : α)
    (h0 : P acc) (hstep : ∀ a b, P a → P (f a b)) : P (l.foldl f acc) := by
  induction l generalizing acc with
  | nil => exact h0
  | cons x xs ih => exact ih _ (hstep _ _ h0)

theorem valid_ident_not_dollar {n : List Char} (h : isValidCSharpIdentifier n = true) :
    startsWithChar '$' n = false := by
  cases n with
  | nil => simp [isValidCSharpIdentifier] at h
  | cons c cs =>
    simp only [isValidCSharpIdentifier, Bool.and_eq_true, Bool.or_eq_true,
      decide_eq_true_eq] at h
    have hc : c ≠ '$' := by
      rintro rfl
      exact absurd h.1 (by decide)
    simp [startsWithChar, hc]

/-- The invariant of the collection accumulator: every collected name is
a valid C# identifier. -/
def VarAccGood (acc : VarAcc) : Prop :=
  ∀ v ∈ acc.vars, isValidCSharpIdentifier v.name = true

theorem addVariable_good {acc : VarAcc} (rawName : List Char) (type? : Option (List Char))
    (h : VarAccGood acc) : VarAccGood (addVariable acc rawName type?) := by
  unfold addVariable
  dsimp only
  split_ifs with h1 h2
  · exact h
  · exact h
  · intro v hv
    rcases List.mem_append.mp hv with hv | hv
    · exact h v hv
    · rcases List.mem_singleton.mp hv with rfl
      revert h2
      cases hval : isValidCSharpIdentifier (jsTrim (splitNameToken rawName)) <;> simp

theorem expandThisMembers_good (stub : ProtocolStub) (ref : Int) {acc : VarAcc}
    (h : VarAccGood acc) : VarAccGood (expandThisMembers stub ref acc) := by
  unfold expandThisMembers
  cases stub.variablesFor ref with
  | none => exact h
  | some members =>
    refine foldl_preserves VarAccGood _ members acc h ?_
    intro a m ha
    dsimp only
    split_ifs with h1 h2 h3
    · exact ha
    · exact ha
    · exact ha
    · intro v hv
      rcases List.mem_append.mp hv with hv | hv
      · exact ha v hv
      · rcases List.mem_singleton.mp hv with rfl
        revert h3
        cases hval : isValidCSharpIdentifier (jsTrim (splitNameToken m.name)) <;> simp

theorem processScopeVars_good (stub : ProtocolStub) (vs : List RawVariable) {acc : VarAcc}
    (h : VarAccGood acc) : VarAccGood (processScopeVars stub vs acc) := by
  unfold processScopeVars
  refine foldl_preserves VarAccGood _ vs acc h ?_
  intro a v ha
  dsimp only
  split_ifs with h1
  · exact expandThisMembers_good stub v.variablesReference ha
  · exact addVariable_good v.name v.type? ha

theorem processScopes_good (stub : ProtocolStub) (scopes : List DapScope) {acc : VarAcc}
    (h : VarAccGood acc) : VarAccGood (processScopes stub scopes acc) := by
  induction scopes generalizing acc with
  | nil => exact h
  | cons sc rest ih =>
    unfold processScopes
    split_ifs with h1
    · exact ih h
    · cases stub.variablesFor sc.variablesReference with
      | none => exact h
      | some vs => exact ih (processScopeVars_good stub vs h)

/-- C10: every name in the list produced by `getScopeVariables` —
including the entries added by expanding `this` — is a valid C#
identifier matching the identifier regex, and never begins with `$`;
bindings failing the checks are silently omitted. -/
theorem C10_scope_variable_names_valid (stub : ProtocolStub) (frameId : Int) :
    ∀ v ∈ getScopeVariables stub frameId,
      isValidCSharpIdentifier v.name = true ∧ startsWithChar '$' v.name = false := by
  intro v hv
  have hgood : VarAccGood ⟨[], []⟩ := by intro w hw; simp at hw
  have h : isValidCSharpIdentifier v.name = true := by
    unfold getScopeVariables at hv
    cases hsc : stub.scopes frameId with
    | none => rw [hsc] at hv; simp at hv
    | some scopes =>
      rw [hsc] at hv
      exact processScopes_good stub scopes hgood v hv
  exact ⟨h, valid_ident_not_dollar h⟩

/-- The C10 witness stub: one scope with one variable `x : int`. -/
def stubC10 : ProtocolStub :=
  { stackTrace := fun _ => none,
    scopes := fun fid => if fid = 0 then some [{ variablesReference := 1 }] else none,
    variablesFor := fun r =>
      if r = 1 then some [{ name := "x".toList, type? := some "int".toList, value := [] }]
      else none,
    fileExists := fun _ => false }

theorem take_append_len (a b : List Char) (i : Nat) :
    (a ++ b).take (a.length + i) = a ++ b.take i := by
  induction a with
  | nil => simp
  | cons x a' ih => simp [List.length_cons, Nat.succ_add, ih]

theorem drop_append_len (a b : List Char) (i : Nat) :
    (a ++ b).drop (a.length + i) = b.drop i := by
  induction a with
  | nil => simp
  | cons x a' ih => simp [List.length_cons, Nat.succ_add, ih]

set_option maxRecDepth 100000 in
/-- C4 counterexample: with a using line that itself contains the
expression-start marker text, the round trip does not return the
expression — `indexOf` finds the marker inside the using block first. -/
theorem C4_counterexample :
    extractUserExpression
        (generateScaffold [] ["// --- expression start ---".toList] "x.Foo()".toList) ≠
      "x.Foo()".toList := by
  decide

/-- C4 (amended): for every variable list and using list whose generated
declaration header does not contain the expression-start marker string,
`extractUserExpression` applied to
`generateScaffold vars usings "x.Foo()"` returns exactly `"x.Foo()"`. -/
theorem C4_roundtrip_preserves_expression (vars : List ScopeVariable)
    (usings : List (List Char))
    (h : containsSeq EXPR_START (scaffoldPrefix vars usings) = false) :
    extractUserExpression (generateScaffold vars usings "x.Foo()".toList) =
      "x.Foo()".toList := by
  have hTpre : isPre EXPR_START
      (EXPR_START ++ ('\n' :: "x.Foo()".toList) ++ "\n    ".toList ++ EXPR_END ++
        "\n\x7d\x7d\n".toList) = true := by decide
  have hsplit : scaffoldPrefix vars usings =
      scaffoldPrefixBody vars usings ++ '\n' :: "    ".toList := rfl
  have hgen : generateScaffold vars usings "x.Foo()".toList =
      scaffoldPrefix vars usings ++
        (EXPR_START ++ ('\n' :: "x.Foo()".toList) ++ "\n    ".toList ++ EXPR_END ++
          "\n\x7d\x7d\n".toList) := by
    show scaffoldPrefix vars usings ++ EXPR_START ++
        (if "x.Foo()".toList = [] then "\n    ".toList else '\n' :: "x.Foo()".toList) ++
        "\n    ".toList ++ EXPR_END ++ "\n\x7d\x7d\n".toList = _
    rw [if_neg (by decide)]
    simp [List.append_assoc]
  set T : List Char :=
    EXPR_START ++ ('\n' :: "x.Foo()".toList) ++ "\n    ".toList ++ EXPR_END ++
      "\n\x7d\x7d\n".toList with hT
  set P : List Char := scaffoldPrefix vars usings with hPdef
  -- no occurrence of the start marker can begin inside `P`
  have hin : ∀ i, i < P.length → isPre EXPR_START ((P ++ T).drop i) = false := by
    have hno := no_isPre_in_prefix (n := EXPR_START)
      (Q := scaffoldPrefixBody vars usings) (W := "    ".toList) (b := T)
      rfl (by decide) (by decide) (by decide) (by decide)
      (show containsSeq EXPR_START
        (scaffoldPrefixBody vars usings ++ '\n' :: "    ".toList) = false from h)
    intro i hi
    exact hno i hi
  have hfirst : firstOccur? EXPR_START (P ++ T) = some P.length :=
    firstOccur?_append EXPR_START P T hin hTpre
  have hlastT : lastOccur? EXPR_END T = some 40 := by decide
  have hlast : lastOccur? EXPR_END (P ++ T) = some (P.length + 40) :=
    lastOccur?_append P hlastT
  have hdropP : (P ++ T).drop P.length = T := List.drop_left P T
  have hnlT : firstOccur? ['\n'] T = some 27 := by decide
  have hafter : idxOfCharFrom '\n' P.length (P ++ T) = some (27 + P.length) := by
    unfold idxOfCharFrom
    rw [hdropP, hnlT]
    rfl
  have hTlen : T.length = 69 := by decide
  have hsub : jsSubstring (P ++ T) (27 + P.length + 1) (P.length + 40) =
      "x.Foo()".toList ++ "\n    ".toList := by
    unfold jsSubstring
    have hlen : (P ++ T).length = P.length + 69 := by
      rw [List.length_append, hTlen]
    rw [hlen]
    have hm1 : min (27 + P.length + 1) (P.length + 69) = P.length + 28 := by omega
    have hm2 : min (P.length + 40) (P.length + 69) = P.length + 40 := by omega
    rw [hm1, hm2, if_pos (by omega)]
    rw [take_append_len, drop_append_len]
    decide
  rw [hgen]
  unfold extractUserExpression
  rw [hfirst, hlast]
  dsimp only
  rw [if_neg (by omega)]
  rw [hafter]
  dsimp only
  rw [if_neg (by omega)]
  rw [hsub]
  decide

/-- Witness for C4 (amended) with one declared variable and one using. -/
theorem C4_roundtrip_preserves_expression_witness :
    containsSeq EXPR_START
      (scaffoldPrefix [⟨"x".toList, "int".toList⟩] ["using System;".toList]) = false ∧
    extractUserExpression
      (generateScaffold [⟨"x".toList, "int".toList⟩] ["using System;".toList]
        "x.Foo()".toList) = "x.Foo()".toList := by
  have h : containsSeq EXPR_START
      (scaffoldPrefix [⟨"x".toList, "int".toList⟩] ["using System;".toList]) = false := by
    decide
  exact ⟨h, C4_roundtrip_preserves_expression _ _ h⟩

/-- Witness for C10 at a concrete collected binding. -/
theorem C10_scope_variable_names_valid_witness :
    (⟨"x".toList, "int".toList⟩ : ScopeVariable) ∈ getScopeVariables stubC10 0 ∧
    isValidCSharpIdentifier "x".toList = true ∧
    startsWithChar '$' "x".toList = false := by
  have hmem : (⟨"x".toList, "int".toList⟩ : ScopeVariable) ∈ getScopeVariables stubC10 0 := by
    decide
  have h := C10_scope_variable_names_valid stubC10 0 _ hmem
  exact ⟨hmem, h.1, h.2⟩

/-- Witness for C9: with a throwing protocol stub, the evaluator returns a
normal result whose text begins with `Error:`. -/
theorem C9_eval_errors_normalized_witness :
    ∃ res, evaluateExpression respondC9 1 "x".toList = some res ∧
      isPre "Error:".toList res.result = true :=
  (C9_eval_errors_normalized respondC9 1 "x".toList).1 (some "boom".toList) rfl

end DebugSharp
